import Mathlib

/-!
# Verification of the `cluster-mocks` gossip-simulator core (`src/gossip.rs`)

A shallow embedding of the per-node gossip state machine: the CRDS table with
versioned upsert semantics, packet consumption, prune grouping, the refresh
path, and the per-round `run_gossip` algorithm.  Node identifiers (`Pubkey`,
32-byte tokens in the source) are modelled as `Nat`; the `HashMap` table is an
association list; `u8`/`u64`/`usize` counters are `Nat` with explicit
saturation where the source saturates.  Randomness (`rand::Rng`) is modelled
by oracle parameters: each `gen_bool` / `gen_range` outcome is an explicit
argument, so every definition is a pure function of its inputs.

The modules `push_active_set.rs`, `received_cache.rs` and the router are not
part of the sources; where their behaviour matters they are modelled from the
specification (each such definition is marked `Modelled from the spec:`).
-/

/-- Node identifier (`Pubkey` in the source): an opaque equatable token. -/
abbrev Pubkey := Nat

/-- `CrdsKey { origin, index }` from the source: identity of one CRDS slot. -/
structure CrdsKey where
  origin : Pubkey
  index : Nat
deriving DecidableEq, Repr

/-- `CrdsEntry { ordinal: u64, num_dups: u8 }` from the source.  `numDups` is
a `u8` in Rust; we keep it as a `Nat` and model `saturating_add` explicitly. -/
structure CrdsEntry where
  ordinal : Nat
  numDups : Nat
deriving DecidableEq, Repr

/-- The saturation bound of the `u8` field `num_dups`. -/
def u8MAX : Nat := 255

/-- `usize::MAX` on a 64-bit target, used by `consume_packets` as the
duplicate weight recorded for outdated packets. -/
def usizeMAX : Nat := 2 ^ 64 - 1

/-- The CRDS table `HashMap<CrdsKey, CrdsEntry>` as an association list. -/
abbrev Table := List (CrdsKey × CrdsEntry)

/-- Table lookup (`HashMap::get` / `Entry` probing): first binding wins. -/
def lookupTable : Table → CrdsKey → Option CrdsEntry
  | [], _ => none
  | (k', e) :: t, k => if k = k' then some e else lookupTable t k

/-- Replace the binding of `k` if present, otherwise append a new binding
(the association-list counterpart of `HashMap::insert`). -/
def insertTable : Table → CrdsKey → CrdsEntry → Table
  | [], k, e => [(k, e)]
  | (k', e') :: t, k, e =>
      if k = k' then (k, e) :: t else (k', e') :: insertTable t k e

/-- Result of `Node::upsert`: `Ok(())` is `accepted`, the error variants are
`UpsertError::Outdated` and `UpsertError::Duplicate(num_dups)`. -/
inductive UpsertResult where
  | accepted
  | outdated
  | duplicate (numDups : Nat)
deriving DecidableEq, Repr

/-- `Node::upsert(key, ordinal)` from the source, traversing the table the way
the `HashMap` entry API locates the binding: on a vacant entry insert
`{ordinal, num_dups: 0}`; on an occupied entry compare the stored ordinal with
the incoming one (`Less` overwrites, `Equal` saturating-increments `num_dups`
and reports `Duplicate`, `Greater` reports `Outdated`). -/
def upsert : Table → CrdsKey → Nat → Table × UpsertResult
  | [], k, o => ([(k, { ordinal := o, numDups := 0 })], .accepted)
  | (k', e) :: t, k, o =>
      if k = k' then
        match compare e.ordinal o with
        | .lt => ((k, { ordinal := o, numDups := 0 }) :: t, .accepted)
        | .eq =>
            let nd := min (e.numDups + 1) u8MAX
            ((k, { ordinal := e.ordinal, numDups := nd }) :: t, .duplicate nd)
        | .gt => ((k', e) :: t, .outdated)
      else
        let r := upsert t k o
        ((k', e) :: r.1, r.2)

/-- The four-case rule for `upsert` exactly as the specification states it:
no entry ⇒ insert `{ordinal, num_dups=0}` and accept; existing ordinal less
than the incoming one ⇒ overwrite to `{ordinal, num_dups=0}` and accept;
equal ⇒ increment `num_dups` with saturation at 255 and report the new count
as a duplicate; greater ⇒ leave the table alone and report outdated. -/
def upsertSpecification (t : Table) (k : CrdsKey) (o : Nat) :
    Table × UpsertResult :=
  match lookupTable t k with
  | none => (insertTable t k { ordinal := o, numDups := 0 }, .accepted)
  | some e =>
      if e.ordinal < o then
        (insertTable t k { ordinal := o, numDups := 0 }, .accepted)
      else if e.ordinal = o then
        let nd := min (e.numDups + 1) u8MAX
        (insertTable t k { ordinal := e.ordinal, numDups := nd },
         .duplicate nd)
      else (t, .outdated)

/-- The `Config` record from the source.  The `f64` rates are modelled as
rationals; `run_duration` (wall-clock bookkeeping only) is omitted. -/
structure Config where
  gossipPushFanout : ℚ
  gossipPushWideFanout : ℚ
  rotateActiveSetRounds : Nat
  gossipPruneMinIngressNodes : Nat
  gossipPushCapacity : Nat
  packetDropRate : ℚ
  numCrds : Nat
  refreshRate : ℚ
  numThreads : Nat
  warmUpRounds : Nat

/-- Rust's `f64 as usize` cast on a rational value: truncation toward zero
with saturation at zero for negative inputs, which coincides with
`⌊q⌋.toNat`. -/
def ratAsUsize (q : ℚ) : Nat := (⌊q⌋).toNat

/-- The shared `HashMap<Pubkey, u64>` stake snapshot, as an association
list. -/
abbrev Stakes := List (Pubkey × Nat)

/-- Stake lookup (`HashMap::get`): first binding wins. -/
def lookupStakes : Stakes → Pubkey → Option Nat
  | [], _ => none
  | (p', s) :: rest, p => if p = p' then some s else lookupStakes rest p

/-- `stakes.get(&origin).copied().unwrap_or_default()` from the source. -/
def stakeOf (stakes : Stakes) (p : Pubkey) : Nat :=
  (lookupStakes stakes p).getD 0

/-- The `Packet` tagged union from the source (`from` is spelled
`fromNode`). -/
inductive Packet where
  | push (fromNode : Pubkey) (key : CrdsKey) (ordinal : Nat)
  | prune (fromNode : Pubkey) (origins : List Pubkey)
deriving DecidableEq, Repr

/-- Node-local mutable state touched by packet consumption.  Modelled from
the spec: `received_cache.rs` and `push_active_set.rs` are not among the
sources, so `ReceivedCache::record(origin, peer, dup_weight)` and
`PushActiveSet::prune(self, from, origins, stakes)` are modelled by
appending each call's arguments to a log (`recordLog`, `activePruneLog`);
the claims only constrain which calls are made and with which arguments. -/
structure NodeSt where
  pubkey : Pubkey
  numGossipRounds : Nat
  table : Table
  recordLog : List (Pubkey × Pubkey × Nat)
  activePruneLog : List (Pubkey × List Pubkey)
deriving Repr

/-- `ConsumeOutput` from the source; the `HashSet` of upserted keys is a
duplicate-free list in insertion order. -/
structure ConsumeOutput where
  keys : List CrdsKey
  numPackets : Nat
  numPrunes : Nat
  numOutdated : Nat
  numDuplicates : Nat
deriving DecidableEq, Repr

/-- `HashSet::insert`: add the key unless it is already present. -/
def insertKey (ks : List CrdsKey) (k : CrdsKey) : List CrdsKey :=
  if k ∈ ks then ks else ks ++ [k]

/-- One iteration of the packet loop in `Node::consume_packets`: dispatch on
the packet tag, upsert pushes (recording provenance and counting duplicate
and outdated outcomes) and count prunes (forwarding them to the active
set). -/
def consumeStep (st : NodeSt) (out : ConsumeOutput) :
    Packet → NodeSt × ConsumeOutput
  | .push fromNode key ordinal =>
      let r := upsert st.table key ordinal
      match r.2 with
      | .accepted =>
          ({ st with
              table := r.1
              recordLog := st.recordLog ++ [(key.origin, fromNode, 0)] },
           { out with keys := insertKey out.keys key })
      | .outdated =>
          ({ st with
              table := r.1
              recordLog := st.recordLog ++ [(key.origin, fromNode, usizeMAX)] },
           { out with numOutdated := out.numOutdated + 1 })
      | .duplicate n =>
          ({ st with
              table := r.1
              recordLog := st.recordLog ++ [(key.origin, fromNode, n)] },
           { out with numDuplicates := out.numDuplicates + 1 })
  | .prune fromNode origins =>
      ({ st with activePruneLog := st.activePruneLog ++ [(fromNode, origins)] },
       { out with numPrunes := out.numPrunes + 1 })

/-- Uncurried form of `consumeStep`, the packet-loop fold body. -/
def consumeFoldStep (a : NodeSt × ConsumeOutput) (p : Packet) :
    NodeSt × ConsumeOutput :=
  consumeStep a.1 a.2 p

/-- `Node::consume_packets` from the source: the drained channel contents are
the `packets` argument; `num_packets` is set to the number drained and the
loop folds `consumeStep` over the packets. -/
def consumePackets (st : NodeSt) (packets : List Packet) :
    NodeSt × ConsumeOutput :=
  packets.foldl consumeFoldStep
    (st, { keys := [], numPackets := packets.length, numPrunes := 0,
           numOutdated := 0, numDuplicates := 0 })

/-- The `Push` packets of an inbound sequence, in order. -/
def pushesOf : List Packet → List (Pubkey × CrdsKey × Nat)
  | [] => []
  | .push f k o :: ps => (f, k, o) :: pushesOf ps
  | .prune _ _ :: ps => pushesOf ps

/-- The `Prune` packets of an inbound sequence, in order. -/
def prunesOf : List Packet → List (Pubkey × List Pubkey)
  | [] => []
  | .push _ _ _ :: ps => prunesOf ps
  | .prune f os :: ps => (f, os) :: prunesOf ps

/-- The duplicate weight the specification assigns to each upsert outcome:
0 when Accepted, `n` when Duplicate(n), the maximum counter value when
Outdated. -/
def dupWeight : UpsertResult → Nat
  | .accepted => 0
  | .duplicate n => n
  | .outdated => usizeMAX

/-- Replay a sequence of pushes through `upsert`, yielding the final table
and each push tagged with its outcome. -/
def replayPushes : Table → List (Pubkey × CrdsKey × Nat) →
    Table × List (Pubkey × CrdsKey × UpsertResult)
  | t, [] => (t, [])
  | t, (f, k, o) :: ps =>
      let r := upsert t k o
      let rest := replayPushes r.1 ps
      (rest.1, (f, k, r.2) :: rest.2)

/-- Whether an upsert outcome is `Outdated`. -/
def isOutdatedRes : UpsertResult → Bool
  | .outdated => true
  | _ => false

/-- Whether an upsert outcome is a `Duplicate`. -/
def isDuplicateRes : UpsertResult → Bool
  | .duplicate _ => true
  | _ => false

/-- Whether an upsert outcome is `Accepted`. -/
def isAcceptedRes : UpsertResult → Bool
  | .accepted => true
  | _ => false

/-- The keys of the accepted pushes of a replayed outcome list. -/
def acceptedKeys (l : List (Pubkey × CrdsKey × UpsertResult)) : List CrdsKey :=
  (l.filter (fun x => isAcceptedRes x.2.2)).map (fun x => x.2.1)

/-- One iteration of `Node::refresh_entries` on the table:
`table.entry(key).or_default().ordinal += 1` — create the entry at its
default `{0, 0}` if absent, then increment its ordinal by one (the `num_dups`
field is not written). -/
def refreshKey (t : Table) (k : CrdsKey) : Table :=
  match lookupTable t k with
  | none => insertTable t k { ordinal := 1, numDups := 0 }
  | some e => insertTable t k { ordinal := e.ordinal + 1, numDups := e.numDups }

/-- `num_refresh = refresh_rate as usize + gen_bool(refresh_rate % 1.0)`;
the `gen_bool` outcome is the oracle argument `bern`. -/
def numRefresh (cfg : Config) (bern : Bool) : Nat :=
  ratAsUsize cfg.refreshRate + (if bern then 1 else 0)

/-- `Node::refresh_entries` from the source: repeat `num_refresh` times,
taking the successive `gen_range(0, num_crds)` outcomes from the oracle
`draws`; each iteration bumps the entry for `(self, draws i)` via
`refreshKey` and yields that key. -/
def refreshEntries (self : Pubkey) (cfg : Config) (bern : Bool)
    (draws : Nat → Nat) (t : Table) : Table × List CrdsKey :=
  (List.range (numRefresh cfg bern)).foldl
    (fun acc i =>
      let key : CrdsKey := { origin := self, index := draws i }
      (refreshKey acc.1 key, acc.2 ++ [key]))
    (t, [])

/-- First-occurrence deduplication (the observable content of collecting
into a `HashSet` and back into a `Vec`). -/
def firstDedup : List Pubkey → List Pubkey
  | [] => []
  | p :: ps => p :: (firstDedup ps).filter (fun q => q ≠ p)

/-- The `(peer, origin)` pairs produced in `Node::send_prunes` by
`origins.flat_map(|origin| received_cache.prune(..).zip(repeat(origin)))`.
Modelled from the spec: `received_cache.rs` is not among the sources, so the
peers proposed for pruning per origin are the oracle `pruneFn`. -/
def prunePairs (origins : List Pubkey) (pruneFn : Pubkey → List Pubkey) :
    List (Pubkey × Pubkey) :=
  origins.flatMap (fun origin => (pruneFn origin).map (fun peer => (peer, origin)))

/-- Association lookup in a grouping accumulator. -/
def lookupGroup : List (Pubkey × List Pubkey) → Pubkey → Option (List Pubkey)
  | [], _ => none
  | (p', os) :: rest, p => if p = p' then some os else lookupGroup rest p

/-- One step of `Itertools::into_group_map`: append the value under its key,
creating the key's group at the end if it is new. -/
def addToGroup : List (Pubkey × List Pubkey) → Pubkey → Pubkey →
    List (Pubkey × List Pubkey)
  | [], peer, origin => [(peer, [origin])]
  | (p, os) :: rest, peer, origin =>
      if peer = p then (p, os ++ [origin]) :: rest
      else (p, os) :: addToGroup rest peer origin

/-- `into_group_map` over the `(peer, origin)` pairs. -/
def groupByPeer (pairs : List (Pubkey × Pubkey)) :
    List (Pubkey × List Pubkey) :=
  pairs.foldl (fun acc pr => addToGroup acc pr.1 pr.2) []

/-- `Node::send_prunes` from the source, as the list of
`(destination, Prune packet)` sends it performs: group the prune pairs by
peer and send each peer one `Prune` packet carrying its collected
origins. -/
def sendPrunesPackets (self : Pubkey) (origins : List Pubkey)
    (pruneFn : Pubkey → List Pubkey) : List (Pubkey × Packet) :=
  (groupByPeer (prunePairs origins pruneFn)).map
    (fun g => (g.1, Packet.prune self g.2))

/-- Sort keys by origin stake, descending
(`sorted_unstable_by_key(|(stake, _)| Reverse(*stake))`). -/
def sortByStakeDesc (stakes : Stakes) (keys : List CrdsKey) : List CrdsKey :=
  keys.insertionSort
    (fun a b => stakeOf stakes b.origin ≤ stakeOf stakes a.origin)

/-- The per-key fan-out of the push loop: wide for own-origin keys, narrow
otherwise; integer part of the configured rate plus the `gen_bool(f % 1.0)`
outcome `bern`. -/
def fanoutFor (cfg : Config) (self : Pubkey) (bern : Bool)
    (origin : Pubkey) : Nat :=
  let f := if origin = self then cfg.gossipPushWideFanout
           else cfg.gossipPushFanout
  ratAsUsize f + (if bern then 1 else 0)

/-- Random and external-module oracles consumed by one `run_gossip` round.
`activePeers` is modelled from the spec: `push_active_set.rs` is not among
the sources, so `active_set.get_nodes(self, origin, |_| false, stakes)` is
the oracle's per-origin peer list (the spec requires it never to yield
`self`; theorems that need this take it as a hypothesis).  `pruneTargets`
likewise stands for `received_cache.prune` and `sendFail` for the router
destinations whose `send` returns an error. -/
structure GossipOracle where
  refreshBern : Bool
  refreshDraws : Nat → Nat
  fanoutBern : CrdsKey → Bool
  activePeers : Pubkey → List Pubkey
  pruneTargets : Pubkey → List Pubkey
  sendFail : Pubkey → Bool

/-- How one `run_gossip` invocation terminates: a Rust panic (`%` by zero or
the `assert_ne!` in the push loop), an `Err` propagated from a router send,
or `Ok(())`. -/
inductive RunOutcome where
  | panicked
  | sendError
  | ok
deriving DecidableEq, Repr

/-- The observable trace of one `run_gossip` round. -/
structure RoundPlan where
  roundAfter : Nat
  didRotate : Bool
  candidates : List Pubkey
  stateAfterConsume : NodeSt
  consumeOut : ConsumeOutput
  pruneSends : List (Pubkey × Packet)
  tableAfterRefresh : Table
  refreshedKeys : List CrdsKey
  sortedKeys : List CrdsKey
  pushSends : List (Pubkey × Packet)

/-- The push loop's termination behaviour over the flattened destination
sequence: `assert_ne!(node, &self.pubkey)` panics before the send, and a
failing send propagates an error, in iteration order. -/
def pushLoopOutcome (self : Pubkey) (sendFail : Pubkey → Bool) :
    List Pubkey → RunOutcome
  | [] => .ok
  | n :: rest =>
      if n = self then .panicked
      else if sendFail n then .sendError
      else pushLoopOutcome self sendFail rest

/-- The candidate pool built by `Node::rotate_active_set`: all stake-map
keys chained with all origins observed in the table, minus the node's own
pubkey, collected into a set. -/
def rotateCandidates (self : Pubkey) (stakes : Stakes) (t : Table) :
    List Pubkey :=
  firstDedup
    ((stakes.map Prod.fst ++ t.map (fun kv => kv.1.origin)).filter
      (fun p => p ≠ self))

/-- `Node::run_gossip` from the source, one round: advance the round
counter; when `num_gossip_rounds % rotate_active_set_rounds == 1` rotate the
active set (`%` by zero panics); drain and consume inbound packets; send
prune packets for the upserted origins (a failing send returns early);
refresh own entries; extend the upserted key set with the refreshed keys;
sort by origin stake descending; push each key to the first `fanout` peers
of `get_nodes` (asserting no destination is `self`; a failing send returns
early).  Pushed ordinals are read from the post-refresh table (`table[&key]`
— every pushed key is present, having just been upserted or refreshed). -/
def runGossip (cfg : Config) (oracle : GossipOracle) (stakes : Stakes)
    (st : NodeSt) (inbound : List Packet) : RunOutcome × RoundPlan :=
  let self := st.pubkey
  let roundAfter := st.numGossipRounds + 1
  let didRotate :=
    cfg.rotateActiveSetRounds ≠ 0 ∧ roundAfter % cfg.rotateActiveSetRounds = 1
  let candidates :=
    if cfg.rotateActiveSetRounds ≠ 0 ∧
        roundAfter % cfg.rotateActiveSetRounds = 1 then
      rotateCandidates self stakes st.table
    else []
  let consumed := consumePackets { st with numGossipRounds := roundAfter } inbound
  let out := consumed.2
  let pruneSends :=
    sendPrunesPackets self (out.keys.map (fun k => k.origin)) oracle.pruneTargets
  let refreshed :=
    refreshEntries self cfg oracle.refreshBern oracle.refreshDraws
      consumed.1.table
  let allKeys := refreshed.2.foldl insertKey out.keys
  let sortedKeys := sortByStakeDesc stakes allKeys
  let pushSends := sortedKeys.flatMap (fun key =>
    let dests := (oracle.activePeers key.origin).take
      (fanoutFor cfg self (oracle.fanoutBern key) key.origin)
    dests.map (fun peer =>
      (peer, Packet.push self key
        (((lookupTable refreshed.1 key).getD
            { ordinal := 0, numDups := 0 }).ordinal))))
  let outcome :=
    if cfg.rotateActiveSetRounds = 0 then .panicked
    else if pruneSends.any (fun s => oracle.sendFail s.1) then .sendError
    else pushLoopOutcome self oracle.sendFail (pushSends.map Prod.fst)
  (outcome,
   { roundAfter := roundAfter
     didRotate := decide didRotate
     candidates := candidates
     stateAfterConsume := consumed.1
     consumeOut := out
     pruneSends := pruneSends
     tableAfterRefresh := refreshed.1
     refreshedKeys := refreshed.2
     sortedKeys := sortedKeys
     pushSends := pushSends })

/-- One node-local table operation, as quantified over by the monotonicity
invariant: consuming a batch of inbound packets or one refresh pass. -/
inductive NodeStep where
  | consume (packets : List Packet)
  | refresh (bern : Bool) (draws : Nat → Nat)

/-- Apply one operation to the node state via the source functions. -/
def applyStep (cfg : Config) (st : NodeSt) : NodeStep → NodeSt
  | .consume packets => (consumePackets st packets).1
  | .refresh bern draws =>
      { st with table := (refreshEntries st.pubkey cfg bern draws st.table).1 }

/-- Apply a sequence of operations. -/
def applySteps (cfg : Config) (st : NodeSt) (steps : List NodeStep) : NodeSt :=
  steps.foldl (applyStep cfg) st

/-- A concrete configuration used by the witness checks. -/
def cfgSample : Config := ⟨2, 13/2, 4, 2, 0, 0, 1, 1, 1, 0⟩

/-- A concrete oracle used by the witness checks. -/
def oracleSample : GossipOracle :=
  { refreshBern := false
    refreshDraws := fun _ => 0
    fanoutBern := fun _ => true
    activePeers := fun _ => [5, 9]
    pruneTargets := fun _ => [5]
    sendFail := fun _ => false }

/-- A concrete node state used by the witness checks. -/
def stSample : NodeSt :=
  { pubkey := 1
    numGossipRounds := 0
    table := [(⟨9, 0⟩, ⟨2, 0⟩)]
    recordLog := []
    activePruneLog := [] }

/-- A concrete stake snapshot used by the witness checks. -/
def stakesSample : Stakes := [(1, 100), (5, 50), (9, 10)]

/-- Probing past a head binding with a different key leaves the
specification's behaviour untouched apart from that binding. -/
lemma upsertSpecification_cons_ne (k' : CrdsKey) (e : CrdsEntry) (tl : Table)
    (k : CrdsKey) (o : Nat) (hk : k ≠ k') :
    upsertSpecification ((k', e) :: tl) k o =
      ((k', e) :: (upsertSpecification tl k o).1,
        (upsertSpecification tl k o).2) := by
  unfold upsertSpecification
  simp only [lookupTable, insertTable, if_neg hk]
  rcases lookupTable tl k with _ | e'
  · simp
  · by_cases h1 : e'.ordinal < o
    · simp [h1]
    · by_cases h2 : e'.ordinal = o <;> simp [h1, h2]

/-- Workhorse form of the four-case rule, shared by the later lemmas. -/
lemma upsert_eq_specification (t : Table) (k : CrdsKey) (o : Nat) :
    upsert t k o = upsertSpecification t k o := by
  induction t with
  | nil => simp [upsert, upsertSpecification, lookupTable, insertTable]
  | cons hd tl ih =>
      obtain ⟨k', e⟩ := hd
      by_cases hk : k = k'
      · subst hk
        rcases lt_trichotomy e.ordinal o with h | h | h
        · simp [upsert, upsertSpecification, lookupTable, insertTable,
            compare_lt_iff_lt.mpr h, h, h.ne]
        · subst h
          simp [upsert, upsertSpecification, lookupTable, insertTable,
            compare_eq_iff_eq.mpr rfl]
        · simp [upsert, upsertSpecification, lookupTable, insertTable,
            compare_gt_iff_gt.mpr h, h.not_lt, (Nat.ne_of_gt h)]
      · have hsrc : upsert ((k', e) :: tl) k o =
            ((k', e) :: (upsert tl k o).1, (upsert tl k o).2) := by
          simp [upsert, hk]
        rw [hsrc, upsertSpecification_cons_ne k' e tl k o hk, ih]

/-- C1. For every table state, key and ordinal, `Node::upsert` behaves
exactly as the specification's four-case rule: absent key ⇒ insert
`{ordinal, num_dups=0}`, return Accepted; stored ordinal `<` incoming ⇒
overwrite to `{ordinal, num_dups=0}`, return Accepted; equal ⇒ saturating
increment of `num_dups` at 255, return Duplicate of the new count; stored
ordinal `>` incoming ⇒ table unchanged, return Outdated. -/
theorem upsert_four_case_rule (t : Table) (k : CrdsKey) (o : Nat) :
    upsert t k o = upsertSpecification t k o :=
  upsert_eq_specification t k o

/-- Looking up the key just written finds the written entry. -/
lemma lookupTable_insertTable_self (t : Table) (k : CrdsKey) (e : CrdsEntry) :
    lookupTable (insertTable t k e) k = some e := by
  induction t with
  | nil => simp [insertTable, lookupTable]
  | cons hd tl ih =>
      obtain ⟨k', e'⟩ := hd
      by_cases hk : k = k' <;> simp [insertTable, lookupTable, hk, ih]

/-- Writing one key leaves every other key's binding untouched. -/
lemma lookupTable_insertTable_ne (t : Table) (k k' : CrdsKey) (e : CrdsEntry)
    (h : k' ≠ k) : lookupTable (insertTable t k e) k' = lookupTable t k' := by
  induction t with
  | nil => simp [insertTable, lookupTable, h]
  | cons hd tl ih =>
      obtain ⟨k₀, e₀⟩ := hd
      by_cases hk : k = k₀
      · subst hk
        simp [insertTable, lookupTable, h]
      · by_cases hk' : k' = k₀ <;> simp [insertTable, lookupTable, hk, hk', ih]

/-- `upsert` leaves every other key's binding untouched. -/
lemma upsert_lookup_other (t : Table) (k : CrdsKey) (o : Nat) (k' : CrdsKey)
    (h : k' ≠ k) : lookupTable (upsert t k o).1 k' = lookupTable t k' := by
  rw [upsert_eq_specification]
  unfold upsertSpecification
  rcases hlk : lookupTable t k with _ | e
  · simp [lookupTable_insertTable_ne _ _ _ _ h]
  · by_cases h1 : e.ordinal < o
    · simp [h1, lookupTable_insertTable_ne _ _ _ _ h]
    · by_cases h2 : e.ordinal = o <;>
        simp [h1, h2, lookupTable_insertTable_ne _ _ _ _ h]

/-- `upsert` never lowers a stored ordinal and never deletes an entry. -/
lemma upsert_ordinal_mono (t : Table) (k : CrdsKey) (o : Nat) (k' : CrdsKey)
    (e : CrdsEntry) (h : lookupTable t k' = some e) :
    ∃ e', lookupTable (upsert t k o).1 k' = some e' ∧
      e.ordinal ≤ e'.ordinal := by
  by_cases hk : k' = k
  · subst hk
    rw [upsert_eq_specification]
    unfold upsertSpecification
    rw [h]
    by_cases h1 : e.ordinal < o
    · exact ⟨{ ordinal := o, numDups := 0 },
        by simp [h1, lookupTable_insertTable_self], le_of_lt h1⟩
    · by_cases h2 : e.ordinal = o
      · exact ⟨{ ordinal := e.ordinal, numDups := min (e.numDups + 1) u8MAX },
          by simp [h1, h2, lookupTable_insertTable_self], le_refl _⟩
      · exact ⟨e, by simp [h1, h2, h], le_refl _⟩
  · rw [upsert_lookup_other t k o k' hk]
    exact ⟨e, h, le_refl _⟩

/-- `refreshKey` leaves every other key's binding untouched. -/
lemma refreshKey_lookup_other (t : Table) (k k' : CrdsKey) (h : k' ≠ k) :
    lookupTable (refreshKey t k) k' = lookupTable t k' := by
  unfold refreshKey
  rcases lookupTable t k with _ | e <;>
    simp [lookupTable_insertTable_ne _ _ _ _ h]

/-- `refreshKey` never lowers a stored ordinal and never deletes an entry. -/
lemma refreshKey_ordinal_mono (t : Table) (k k' : CrdsKey) (e : CrdsEntry)
    (h : lookupTable t k' = some e) :
    ∃ e', lookupTable (refreshKey t k) k' = some e' ∧
      e.ordinal ≤ e'.ordinal := by
  by_cases hk : k' = k
  · subst hk
    unfold refreshKey
    rw [h]
    exact ⟨_, lookupTable_insertTable_self _ _ _, by simp⟩
  · rw [refreshKey_lookup_other _ _ _ hk]
    exact ⟨e, h, le_refl _⟩

/-- One packet-consumption step never lowers a stored ordinal. -/
lemma consumeStep_table_mono (st : NodeSt) (out : ConsumeOutput) (p : Packet)
    (k : CrdsKey) (e : CrdsEntry) (h : lookupTable st.table k = some e) :
    ∃ e', lookupTable (consumeStep st out p).1.table k = some e' ∧
      e.ordinal ≤ e'.ordinal := by
  cases p with
  | push fromNode key ordinal =>
      have hmono := upsert_ordinal_mono st.table key ordinal k e h
      simp only [consumeStep]
      split <;> simpa using hmono
  | prune fromNode origins => exact ⟨e, h, le_refl _⟩

/-- Folding packet consumption never lowers a stored ordinal. -/
lemma consume_foldl_table_mono (packets : List Packet) :
    ∀ (acc : NodeSt × ConsumeOutput) (k : CrdsKey) (e : CrdsEntry),
      lookupTable acc.1.table k = some e →
      ∃ e', lookupTable ((packets.foldl consumeFoldStep acc).1.table) k =
            some e' ∧ e.ordinal ≤ e'.ordinal := by
  induction packets with
  | nil => exact fun acc k e h => ⟨e, h, le_refl _⟩
  | cons p ps ih =>
      intro acc k e h
      obtain ⟨e₁, h₁, hle₁⟩ := consumeStep_table_mono acc.1 acc.2 p k e h
      obtain ⟨e₂, h₂, hle₂⟩ := ih (consumeFoldStep acc p) k e₁ h₁
      exact ⟨e₂, h₂, le_trans hle₁ hle₂⟩

/-- `consume_packets` never lowers a stored ordinal. -/
lemma consumePackets_table_mono (st : NodeSt) (packets : List Packet)
    (k : CrdsKey) (e : CrdsEntry) (h : lookupTable st.table k = some e) :
    ∃ e', lookupTable (consumePackets st packets).1.table k = some e' ∧
      e.ordinal ≤ e'.ordinal :=
  consume_foldl_table_mono packets _ k e h

/-- Folding the refresh loop never lowers a stored ordinal. -/
lemma refresh_fold_table_mono (self : Pubkey) (draws : Nat → Nat)
    (l : List Nat) :
    ∀ (acc : Table × List CrdsKey) (k : CrdsKey) (e : CrdsEntry),
      lookupTable acc.1 k = some e →
      ∃ e', lookupTable
          ((l.foldl (fun acc i =>
              let key : CrdsKey := { origin := self, index := draws i }
              (refreshKey acc.1 key, acc.2 ++ [key])) acc).1) k = some e' ∧
        e.ordinal ≤ e'.ordinal := by
  induction l with
  | nil => exact fun acc k e h => ⟨e, h, le_refl _⟩
  | cons i rest ih =>
      intro acc k e h
      obtain ⟨e₁, h₁, hle₁⟩ :=
        refreshKey_ordinal_mono acc.1 { origin := self, index := draws i } k e h
      obtain ⟨e₂, h₂, hle₂⟩ :=
        ih (refreshKey acc.1 { origin := self, index := draws i },
            acc.2 ++ [{ origin := self, index := draws i }]) k e₁ h₁
      exact ⟨e₂, h₂, le_trans hle₁ hle₂⟩

/-- `refresh_entries` never lowers a stored ordinal. -/
lemma refreshEntries_table_mono (self : Pubkey) (cfg : Config) (bern : Bool)
    (draws : Nat → Nat) (t : Table) (k : CrdsKey) (e : CrdsEntry)
    (h : lookupTable t k = some e) :
    ∃ e', lookupTable (refreshEntries self cfg bern draws t).1 k = some e' ∧
      e.ordinal ≤ e'.ordinal :=
  refresh_fold_table_mono self draws (List.range (numRefresh cfg bern))
    (t, []) k e h

/-- One node operation never lowers a stored ordinal. -/
lemma applyStep_table_mono (cfg : Config) (st : NodeSt) (step : NodeStep)
    (k : CrdsKey) (e : CrdsEntry) (h : lookupTable st.table k = some e) :
    ∃ e', lookupTable (applyStep cfg st step).table k = some e' ∧
      e.ordinal ≤ e'.ordinal := by
  cases step with
  | consume packets => exact consumePackets_table_mono st packets k e h
  | refresh bern draws =>
      exact refreshEntries_table_mono st.pubkey cfg bern draws st.table k e h

/-- C2. For every node, key and sequence of the node's table operations
(packet consumption via `upsert`, and `refresh_entries`), the stored
ordinal of the key is non-decreasing: the entry is never deleted and its
ordinal is never replaced by a smaller value. -/
theorem table_ordinal_monotone (cfg : Config) (st : NodeSt)
    (steps : List NodeStep) (k : CrdsKey) (e : CrdsEntry)
    (h : lookupTable st.table k = some e) :
    ∃ e', lookupTable (applySteps cfg st steps).table k = some e' ∧
      e.ordinal ≤ e'.ordinal := by
  induction steps generalizing st e with
  | nil => exact ⟨e, h, le_refl _⟩
  | cons s rest ih =>
      obtain ⟨e₁, h₁, hle₁⟩ := applyStep_table_mono cfg st s k e h
      obtain ⟨e₂, h₂, hle₂⟩ := ih (applyStep cfg st s) e₁ h₁
      exact ⟨e₂, h₂, le_trans hle₁ hle₂⟩

/-- Witness for C2 at a concrete node state and operation sequence. -/
theorem table_ordinal_monotone_witness :
    ∃ e', lookupTable
        (applySteps ⟨2, 6, 4, 2, 0, 0, 1, 1, 1, 0⟩
          { pubkey := 1
            numGossipRounds := 0
            table := [(⟨9, 0⟩, ⟨2, 0⟩)]
            recordLog := []
            activePruneLog := [] }
          [NodeStep.consume [Packet.push 3 ⟨9, 0⟩ 7],
           NodeStep.refresh false (fun _ => 0)]).table ⟨9, 0⟩ = some e' ∧
      (2 : Nat) ≤ e'.ordinal :=
  table_ordinal_monotone _ _ _ _ ⟨2, 0⟩ rfl

/-- The refresh fold yields the keys of its drawn indices in order and
threads the table through `refreshKey`. -/
lemma refresh_fold_spec (self : Pubkey) (draws : Nat → Nat) :
    ∀ (l : List Nat) (t : Table) (ks : List CrdsKey),
      l.foldl (fun acc i =>
          let key : CrdsKey := { origin := self, index := draws i }
          (refreshKey acc.1 key, acc.2 ++ [key])) (t, ks) =
        ((l.map (fun i => ({ origin := self, index := draws i } : CrdsKey))).foldl
            refreshKey t,
         ks ++ l.map (fun i => { origin := self, index := draws i })) := by
  intro l
  induction l with
  | nil => simp
  | cons i rest ih =>
      intro t ks
      simp [ih, List.foldl_cons]

/-- `refreshKey` locates or creates the entry, increments its ordinal by
exactly one, leaves `num_dups` unchanged (zero for a created entry), and
touches no other key. -/
lemma refreshKey_rule (t' : Table) (k : CrdsKey) :
    lookupTable (refreshKey t' k) k = some
      { ordinal :=
          ((lookupTable t' k).getD { ordinal := 0, numDups := 0 }).ordinal + 1
        numDups :=
          ((lookupTable t' k).getD { ordinal := 0, numDups := 0 }).numDups } ∧
    ∀ k', k' ≠ k → lookupTable (refreshKey t' k) k' = lookupTable t' k' := by
  constructor
  · unfold refreshKey
    rcases lookupTable t' k with _ | e <;>
      simp [lookupTable_insertTable_self]
  · intro k' hk
    exact refreshKey_lookup_other t' k k' hk

/-- C3 (amended). Each iteration of `refresh_entries` takes the next
uniform index draw in `[0, num_crds)`, locates or creates the table entry
for `(self_pubkey, index)`, increments that entry's ordinal by exactly one
and leaves its `num_dups` unchanged (a created entry starts at zero); the
number of iterations is `⌊refresh_rate⌋` plus the Bernoulli draw on the
fractional part. -/
theorem refresh_entries_rule (self : Pubkey) (cfg : Config) (bern : Bool)
    (draws : Nat → Nat) (t : Table)
    (hrate : 0 ≤ cfg.refreshRate) (hdr : ∀ i, draws i < cfg.numCrds) :
    ((numRefresh cfg bern : ℤ) = ⌊cfg.refreshRate⌋ +
        (if bern then 1 else 0)) ∧
    (refreshEntries self cfg bern draws t).2 =
      (List.range (numRefresh cfg bern)).map
        (fun i => { origin := self, index := draws i }) ∧
    (∀ key ∈ (refreshEntries self cfg bern draws t).2,
        key.origin = self ∧ key.index < cfg.numCrds) ∧
    (refreshEntries self cfg bern draws t).1 =
      ((refreshEntries self cfg bern draws t).2).foldl refreshKey t ∧
    (∀ t' k, lookupTable (refreshKey t' k) k = some
        { ordinal :=
            ((lookupTable t' k).getD { ordinal := 0, numDups := 0 }).ordinal + 1
          numDups :=
            ((lookupTable t' k).getD { ordinal := 0, numDups := 0 }).numDups } ∧
      ∀ k', k' ≠ k → lookupTable (refreshKey t' k) k' = lookupTable t' k') := by
  have hfold := refresh_fold_spec self draws
    (List.range (numRefresh cfg bern)) t []
  have h2 : (refreshEntries self cfg bern draws t).2 =
      (List.range (numRefresh cfg bern)).map
        (fun i => { origin := self, index := draws i }) := by
    unfold refreshEntries
    rw [hfold]
    simp
  refine ⟨?_, h2, ?_, ?_, fun t' k => refreshKey_rule t' k⟩
  · unfold numRefresh ratAsUsize
    rcases bern with _ | _ <;>
      simp [Int.toNat_of_nonneg (Int.floor_nonneg.mpr hrate)]
  · intro key hkey
    rw [h2] at hkey
    obtain ⟨i, _, hi⟩ := List.mem_map.mp hkey
    subst hi
    exact ⟨rfl, hdr i⟩
  · unfold refreshEntries
    rw [hfold]
    simp

/-- Witness for C3 (amended) at a concrete configuration and table. -/
theorem refresh_entries_rule_witness :
    ((numRefresh ⟨2, 6, 4, 2, 0, 0, 1, 1, 1, 0⟩ true : ℤ) =
        ⌊(⟨2, 6, 4, 2, 0, 0, 1, 1, 1, 0⟩ : Config).refreshRate⌋ +
        (if true then 1 else 0)) ∧
    (refreshEntries 7 ⟨2, 6, 4, 2, 0, 0, 1, 1, 1, 0⟩ true (fun _ => 0) []).2 =
      (List.range (numRefresh ⟨2, 6, 4, 2, 0, 0, 1, 1, 1, 0⟩ true)).map
        (fun i => { origin := 7, index := (fun _ => 0) i }) ∧
    (∀ key ∈ (refreshEntries 7 ⟨2, 6, 4, 2, 0, 0, 1, 1, 1, 0⟩ true
          (fun _ => 0) []).2,
        key.origin = 7 ∧
          key.index < (⟨2, 6, 4, 2, 0, 0, 1, 1, 1, 0⟩ : Config).numCrds) ∧
    (refreshEntries 7 ⟨2, 6, 4, 2, 0, 0, 1, 1, 1, 0⟩ true (fun _ => 0) []).1 =
      ((refreshEntries 7 ⟨2, 6, 4, 2, 0, 0, 1, 1, 1, 0⟩ true
          (fun _ => 0) []).2).foldl refreshKey [] ∧
    (∀ t' k, lookupTable (refreshKey t' k) k = some
        { ordinal :=
            ((lookupTable t' k).getD { ordinal := 0, numDups := 0 }).ordinal + 1
          numDups :=
            ((lookupTable t' k).getD { ordinal := 0, numDups := 0 }).numDups } ∧
      ∀ k', k' ≠ k → lookupTable (refreshKey t' k) k' = lookupTable t' k') :=
  refresh_entries_rule 7 ⟨2, 6, 4, 2, 0, 0, 1, 1, 1, 0⟩ true (fun _ => 0) []
    (by norm_num) (fun _ => Nat.one_pos)

/-- Counterexample to C3 as stated: refreshing the own entry `(7, 0)` that
currently holds `{ordinal 5, num_dups 3}` produces `{ordinal 6, num_dups 3}`
— the ordinal advances but `num_dups` is NOT reset to zero. -/
theorem refresh_entries_num_dups_counterexample :
    (refreshEntries 7 ⟨2, 6, 4, 2, 0, 0, 1, 1, 1, 0⟩ false (fun _ => 0)
        [(⟨7, 0⟩, ⟨5, 3⟩)]).1 = [(⟨7, 0⟩, ⟨6, 3⟩)] ∧ (3 : Nat) ≠ 0 := by
  constructor
  · rfl
  · decide

/-- The packet-consumption fold, decomposed: the table and provenance
records are exactly the replay of the `Push` packets through `upsert` (with
duplicate weight 0 / `n` / MAX for Accepted / Duplicate / Outdated), the
active-set prune calls are exactly the `Prune` packets, and the counters
count the corresponding outcomes. -/
lemma consume_fold_spec (packets : List Packet) :
    ∀ (st : NodeSt) (out : ConsumeOutput),
      packets.foldl consumeFoldStep (st, out) =
        ({ pubkey := st.pubkey
           numGossipRounds := st.numGossipRounds
           table := (replayPushes st.table (pushesOf packets)).1
           recordLog := st.recordLog ++
             ((replayPushes st.table (pushesOf packets)).2).map
               (fun x => (x.2.1.origin, x.1, dupWeight x.2.2))
           activePruneLog := st.activePruneLog ++ prunesOf packets },
         { keys := (acceptedKeys
               ((replayPushes st.table (pushesOf packets)).2)).foldl
             insertKey out.keys
           numPackets := out.numPackets
           numPrunes := out.numPrunes + (prunesOf packets).length
           numOutdated := out.numOutdated +
             (((replayPushes st.table (pushesOf packets)).2).filter
               (fun x => isOutdatedRes x.2.2)).length
           numDuplicates := out.numDuplicates +
             (((replayPushes st.table (pushesOf packets)).2).filter
               (fun x => isDuplicateRes x.2.2)).length }) := by
  induction packets with
  | nil =>
      intro st out
      simp [pushesOf, prunesOf, replayPushes, acceptedKeys]
  | cons p ps ih =>
      intro st out
      cases p with
      | push f k o =>
          rcases hres : upsert st.table k o with ⟨t', r⟩
          cases r with
          | accepted =>
              simp only [List.foldl_cons, consumeFoldStep, consumeStep, hres]
              rw [ih]
              simp [pushesOf, replayPushes, hres, acceptedKeys, dupWeight,
                isOutdatedRes, isDuplicateRes, isAcceptedRes, prunesOf,
                List.filter_cons, List.append_assoc]
          | outdated =>
              simp only [List.foldl_cons, consumeFoldStep, consumeStep, hres]
              rw [ih]
              simp [pushesOf, replayPushes, hres, acceptedKeys, dupWeight,
                isOutdatedRes, isDuplicateRes, isAcceptedRes, prunesOf,
                List.filter_cons, List.append_assoc, Nat.add_assoc,
                Nat.add_comm 1]
          | duplicate n =>
              simp only [List.foldl_cons, consumeFoldStep, consumeStep, hres]
              rw [ih]
              simp [pushesOf, replayPushes, hres, acceptedKeys, dupWeight,
                isOutdatedRes, isDuplicateRes, isAcceptedRes, prunesOf,
                List.filter_cons, List.append_assoc, Nat.add_assoc,
                Nat.add_comm 1]
      | prune f origins =>
          simp only [List.foldl_cons, consumeFoldStep, consumeStep]
          rw [ih]
          simp [pushesOf, prunesOf, List.append_assoc,
            Nat.add_assoc, Nat.add_comm 1]

/-- C4. `consume_packets` drains the available packets and returns a
`ConsumeOutput` with `num_packets` equal to the number drained; each
Accepted push records `(origin, from, dup_weight 0)` in the received cache
and adds its key to the upserted set; each Duplicate(n) push records weight
`n` and bumps `num_duplicates`; each Outdated push records the maximum
weight and bumps `num_outdated`; each Prune bumps `num_prunes` and forwards
`(from, origins)` to `active_set.prune`; the table evolves by replaying the
pushes through `upsert`. -/
theorem consume_packets_rule (st : NodeSt) (packets : List Packet) :
    consumePackets st packets =
      ({ pubkey := st.pubkey
         numGossipRounds := st.numGossipRounds
         table := (replayPushes st.table (pushesOf packets)).1
         recordLog := st.recordLog ++
           ((replayPushes st.table (pushesOf packets)).2).map
             (fun x => (x.2.1.origin, x.1, dupWeight x.2.2))
         activePruneLog := st.activePruneLog ++ prunesOf packets },
       { keys := (acceptedKeys
             ((replayPushes st.table (pushesOf packets)).2)).foldl
           insertKey []
         numPackets := packets.length
         numPrunes := (prunesOf packets).length
         numOutdated :=
           (((replayPushes st.table (pushesOf packets)).2).filter
             (fun x => isOutdatedRes x.2.2)).length
         numDuplicates :=
           (((replayPushes st.table (pushesOf packets)).2).filter
             (fun x => isDuplicateRes x.2.2)).length }) := by
  unfold consumePackets
  rw [consume_fold_spec]
  simp

/-- Adding a `(peer, origin)` pair appends the origin to the peer's group and
leaves every other group unchanged. -/
lemma lookupGroup_addToGroup (acc : List (Pubkey × List Pubkey))
    (p o q : Pubkey) :
    lookupGroup (addToGroup acc p o) q =
      if q = p then some ((lookupGroup acc p).getD [] ++ [o])
      else lookupGroup acc q := by
  induction acc with
  | nil => by_cases h : q = p <;> simp [addToGroup, lookupGroup, h]
  | cons hd tl ih =>
      obtain ⟨p₀, os₀⟩ := hd
      by_cases hp : p = p₀
      · subst hp
        by_cases hq : q = p <;> simp [addToGroup, lookupGroup, hq]
      · have hp' : ¬ p₀ = p := fun h => hp h.symm
        by_cases hq : q = p₀
        · have hqp : ¬ q = p := by
            rw [hq]
            exact hp'
          simp [addToGroup, lookupGroup, hp, hq, hqp, hp']
        · simp [addToGroup, lookupGroup, hp, hq, ih, hp']

/-- Adding a pair keeps the existing group keys and appends the peer at the
end only when it is new. -/
lemma keys_addToGroup (acc : List (Pubkey × List Pubkey)) (p o : Pubkey) :
    (addToGroup acc p o).map Prod.fst =
      if p ∈ acc.map Prod.fst then acc.map Prod.fst
      else acc.map Prod.fst ++ [p] := by
  induction acc with
  | nil => simp [addToGroup]
  | cons hd tl ih =>
      obtain ⟨p₀, os₀⟩ := hd
      by_cases hp : p = p₀
      · subst hp
        simp [addToGroup]
      · have : ¬ p₀ = p := fun h => hp (h ▸ rfl)
        by_cases hmem : p ∈ tl.map Prod.fst <;>
          simp [addToGroup, hp, hmem, ih, this]

/-- In a grouping with duplicate-free keys, list membership coincides with
association lookup. -/
lemma mem_group_iff_lookup (l : List (Pubkey × List Pubkey))
    (hn : (l.map Prod.fst).Nodup) (q : Pubkey) (os : List Pubkey) :
    (q, os) ∈ l ↔ lookupGroup l q = some os := by
  induction l with
  | nil => simp [lookupGroup]
  | cons hd tl ih =>
      obtain ⟨p₀, os₀⟩ := hd
      simp only [List.map_cons, List.nodup_cons] at hn
      by_cases hq : q = p₀
      · subst hq
        have : (q, os) ∉ tl := fun hmem =>
          hn.1 (List.mem_map.mpr ⟨(q, os), hmem, rfl⟩)
        simp only [List.mem_cons, lookupGroup, if_pos rfl]
        constructor
        · rintro (h | h)
          · simp [Prod.ext_iff] at h
            simp [h]
          · exact absurd h this
        · rintro h
          left
          simp at h
          simp [h]
      · simp [lookupGroup, hq, ih hn.2, Prod.ext_iff]

/-- Lookup in a grouping succeeds exactly for present keys. -/
lemma lookupGroup_isSome_iff (l : List (Pubkey × List Pubkey)) (q : Pubkey) :
    (lookupGroup l q).isSome ↔ q ∈ l.map Prod.fst := by
  induction l with
  | nil => simp [lookupGroup]
  | cons hd tl ih =>
      obtain ⟨p₀, os₀⟩ := hd
      by_cases hq : q = p₀ <;> simp [lookupGroup, hq, ih]

/-- The grouping fold keeps keys duplicate-free. -/
lemma groupFold_keys_nodup (pairs : List (Pubkey × Pubkey)) :
    ∀ acc : List (Pubkey × List Pubkey), (acc.map Prod.fst).Nodup →
      (((pairs.foldl (fun a pr => addToGroup a pr.1 pr.2) acc)).map
          Prod.fst).Nodup := by
  induction pairs with
  | nil => exact fun acc h => h
  | cons pr rest ih =>
      intro acc hacc
      refine ih (addToGroup acc pr.1 pr.2) ?_
      rw [keys_addToGroup]
      by_cases hmem : pr.1 ∈ acc.map Prod.fst
      · simpa [hmem] using hacc
      · rw [if_neg hmem]
        refine List.Nodup.append hacc (List.nodup_singleton _) ?_
        intro a ha hb
        rw [List.mem_singleton] at hb
        subst hb
        exact hmem ha

/-- The grouping fold's keys are the accumulator's keys plus the pairs'
peers. -/
lemma groupFold_keys_mem (pairs : List (Pubkey × Pubkey)) :
    ∀ (acc : List (Pubkey × List Pubkey)) (q : Pubkey),
      q ∈ ((pairs.foldl (fun a pr => addToGroup a pr.1 pr.2) acc)).map
          Prod.fst ↔
        q ∈ acc.map Prod.fst ∨ q ∈ pairs.map Prod.fst := by
  induction pairs with
  | nil => simp
  | cons pr rest ih =>
      intro acc q
      simp only [List.foldl_cons, ih, keys_addToGroup, List.map_cons,
        List.mem_cons]
      by_cases hmem : pr.1 ∈ acc.map Prod.fst
      · simp only [if_pos hmem]
        constructor
        · rintro (h | h)
          · exact Or.inl h
          · exact Or.inr (Or.inr h)
        · rintro (h | h | h)
          · exact Or.inl h
          · exact Or.inl (h ▸ hmem)
          · exact Or.inr h
      · simp only [if_neg hmem, List.mem_append, List.mem_singleton]
        tauto

/-- The origins collected for each peer by the grouping fold are exactly the
pairs matching that peer, appended to whatever the accumulator already
held. -/
lemma groupFold_lookup (pairs : List (Pubkey × Pubkey)) :
    ∀ (acc : List (Pubkey × List Pubkey)) (q : Pubkey),
      lookupGroup (pairs.foldl (fun a pr => addToGroup a pr.1 pr.2) acc) q =
        match lookupGroup acc q with
        | some os =>
            some (os ++ (pairs.filter (fun pr => pr.1 = q)).map Prod.snd)
        | none =>
            if (pairs.filter (fun pr => pr.1 = q)) = [] then none
            else some ((pairs.filter (fun pr => pr.1 = q)).map Prod.snd) := by
  induction pairs with
  | nil =>
      intro acc q
      rcases h : lookupGroup acc q with _ | os <;> simp [h]
  | cons pr rest ih =>
      intro acc q
      simp only [List.foldl_cons]
      rw [ih, lookupGroup_addToGroup]
      by_cases hq : q = pr.1
      · subst hq
        have hfil : List.filter (fun x => decide (x.1 = pr.1)) (pr :: rest) =
            pr :: List.filter (fun x => decide (x.1 = pr.1)) rest := by
          simp [List.filter_cons]
        rcases hlk : lookupGroup acc pr.1 with _ | os <;>
          simp [hlk, hfil]
      · have hq' : ¬ pr.1 = q := fun h => hq h.symm
        have hfil : List.filter (fun x => decide (x.1 = q)) (pr :: rest) =
            List.filter (fun x => decide (x.1 = q)) rest := by
          simp [List.filter_cons, hq']
        rw [hfil]
        rcases hlk : lookupGroup acc q with _ | os <;>
          simp [hlk, hq, hfil]

/-- The destinations of `send_prunes` are the grouped peers. -/
lemma sendPrunes_keys (self : Pubkey) (origins : List Pubkey)
    (pruneFn : Pubkey → List Pubkey) :
    (sendPrunesPackets self origins pruneFn).map Prod.fst =
      (groupByPeer (prunePairs origins pruneFn)).map Prod.fst := by
  simp [sendPrunesPackets, List.map_map, Function.comp]

/-- A peer occurs among the prune pairs iff some upserted origin proposes
pruning it. -/
lemma mem_prunePairs_fst (origins : List Pubkey)
    (pruneFn : Pubkey → List Pubkey) (peer : Pubkey) :
    peer ∈ (prunePairs origins pruneFn).map Prod.fst ↔
      ∃ origin ∈ origins, peer ∈ pruneFn origin := by
  simp only [prunePairs, List.map_flatMap, List.map_map, List.mem_flatMap]
  constructor
  · rintro ⟨origin, ho, hmem⟩
    refine ⟨origin, ho, ?_⟩
    obtain ⟨x, hx, hxe⟩ := List.mem_map.mp hmem
    simpa [← hxe] using hx
  · rintro ⟨origin, ho, hmem⟩
    exact ⟨origin, ho, List.mem_map.mpr ⟨peer, hmem, rfl⟩⟩

/-- C7. `send_prunes` groups the prune targets proposed by
`received_cache.prune` by destination peer: the destinations are pairwise
distinct (one packet per peer), a peer is a destination exactly when some
upserted origin proposes pruning it, and the single packet a peer receives
lists every origin that prunes it this round (with multiplicity, in origin
order). -/
theorem send_prunes_groups_by_peer (self : Pubkey) (origins : List Pubkey)
    (pruneFn : Pubkey → List Pubkey) :
    ((sendPrunesPackets self origins pruneFn).map Prod.fst).Nodup ∧
    (∀ peer, peer ∈ (sendPrunesPackets self origins pruneFn).map Prod.fst ↔
      ∃ origin ∈ origins, peer ∈ pruneFn origin) ∧
    (∀ peer pkt, (peer, pkt) ∈ sendPrunesPackets self origins pruneFn →
      pkt = Packet.prune self
        (((prunePairs origins pruneFn).filter
            (fun pr => pr.1 = peer)).map Prod.snd)) := by
  have hnodup :
      ((groupByPeer (prunePairs origins pruneFn)).map Prod.fst).Nodup := by
    unfold groupByPeer
    exact groupFold_keys_nodup _ [] (by simp)
  refine ⟨?_, ?_, ?_⟩
  · rw [sendPrunes_keys]
    exact hnodup
  · intro peer
    rw [sendPrunes_keys]
    unfold groupByPeer
    rw [groupFold_keys_mem]
    simp only [List.map_nil, List.not_mem_nil, false_or]
    exact mem_prunePairs_fst origins pruneFn peer
  · intro peer pkt hmem
    obtain ⟨g, hg, hge⟩ := List.mem_map.mp hmem
    obtain ⟨hg1, hg2⟩ := Prod.mk.injEq .. ▸ hge
    have hlk : lookupGroup (groupByPeer (prunePairs origins pruneFn)) g.1 =
        some g.2 := by
      rw [← mem_group_iff_lookup _ hnodup]
      simpa using hg
    rw [groupByPeer, groupFold_lookup] at hlk
    simp only [lookupGroup] at hlk
    by_cases hfe :
        (prunePairs origins pruneFn).filter (fun pr => pr.1 = g.1) = []
    · rw [if_pos hfe] at hlk
      exact absurd hlk (by simp)
    · rw [if_neg hfe] at hlk
      have hval := Option.some.injEq .. ▸ hlk
      subst hg1
      rw [← hg2]
      simp at hval
      rw [hval]

/-- Membership is preserved by first-occurrence deduplication. -/
lemma mem_firstDedup (x : Pubkey) : ∀ l : List Pubkey,
    x ∈ firstDedup l ↔ x ∈ l := by
  intro l
  induction l with
  | nil => simp [firstDedup]
  | cons p ps ih =>
      by_cases hx : x = p
      · simp [firstDedup, hx]
      · simp [firstDedup, hx, List.mem_filter, ih]

/-- First-occurrence deduplication yields a duplicate-free list. -/
lemma firstDedup_nodup : ∀ l : List Pubkey, (firstDedup l).Nodup := by
  intro l
  induction l with
  | nil => simp [firstDedup]
  | cons p ps ih =>
      simp only [firstDedup, List.nodup_cons]
      refine ⟨?_, List.Nodup.filter _ ih⟩
      intro hmem
      exact absurd (List.of_mem_filter hmem) (by simp)

/-- The push loop never panics when no destination equals `self`. -/
lemma pushLoopOutcome_ne_panicked (self : Pubkey) (sendFail : Pubkey → Bool) :
    ∀ l : List Pubkey, (∀ n ∈ l, n ≠ self) →
      pushLoopOutcome self sendFail l ≠ RunOutcome.panicked := by
  intro l
  induction l with
  | nil => intro _ h; simp [pushLoopOutcome] at h
  | cons n rest ih =>
      intro hl
      have hn : n ≠ self := hl n (by simp)
      by_cases hf : sendFail n
      · simp [pushLoopOutcome, hn, hf]
      · simp only [pushLoopOutcome, if_neg hn, hf, if_neg (by simp : ¬ False)]
        exact ih (fun m hm => hl m (by simp [hm]))

/-- With no self destination, the push loop errors exactly when some
destination's send fails and succeeds exactly when none does. -/
lemma pushLoopOutcome_spec (self : Pubkey) (sendFail : Pubkey → Bool) :
    ∀ l : List Pubkey, (∀ n ∈ l, n ≠ self) →
      ((pushLoopOutcome self sendFail l = RunOutcome.sendError ↔
          ∃ n ∈ l, sendFail n = true) ∧
        (pushLoopOutcome self sendFail l = RunOutcome.ok ↔
          ∀ n ∈ l, sendFail n = false)) := by
  intro l
  induction l with
  | nil => intro _; simp [pushLoopOutcome]
  | cons n rest ih =>
      intro hl
      have hn : n ≠ self := hl n (by simp)
      have ih' := ih (fun m hm => hl m (by simp [hm]))
      by_cases hf : sendFail n
      · simp [pushLoopOutcome, hn, hf]
      · simp only [pushLoopOutcome, if_neg hn, hf, if_false, Bool.false_eq_true]
        rw [ih'.1, ih'.2]  
        constructor
        · constructor
          · intro h
            obtain ⟨m, hm, hmf⟩ := h
            exact ⟨m, by simp [hm], hmf⟩
          · rintro ⟨m, hm, hmf⟩
            rcases List.mem_cons.mp hm with h | h
            · subst h
              exact absurd hmf (by simp [hf])
            · exact ⟨m, h, hmf⟩
        · constructor
          · intro h m hm
            rcases List.mem_cons.mp hm with h' | h'
            · subst h'
              simpa using hf
            · exact h m h'
          · intro h m hm
            exact h m (by simp [hm])

/-- The round outcome, read off the definition: `%` by zero panics first, a
failing prune send errors next, and otherwise the push loop decides. -/
lemma runGossip_outcome_eq (cfg : Config) (oracle : GossipOracle)
    (stakes : Stakes) (st : NodeSt) (inbound : List Packet) :
    (runGossip cfg oracle stakes st inbound).1 =
      if cfg.rotateActiveSetRounds = 0 then RunOutcome.panicked
      else if ((runGossip cfg oracle stakes st inbound).2.pruneSends).any
          (fun s => oracle.sendFail s.1) then RunOutcome.sendError
      else pushLoopOutcome st.pubkey oracle.sendFail
        (((runGossip cfg oracle stakes st inbound).2.pushSends).map
          Prod.fst) := rfl

/-- The planned push sends, read off the definition. -/
lemma runGossip_pushSends_eq (cfg : Config) (oracle : GossipOracle)
    (stakes : Stakes) (st : NodeSt) (inbound : List Packet) :
    (runGossip cfg oracle stakes st inbound).2.pushSends =
      ((runGossip cfg oracle stakes st inbound).2.sortedKeys).flatMap
        (fun key =>
          ((oracle.activePeers key.origin).take
              (fanoutFor cfg st.pubkey (oracle.fanoutBern key)
                key.origin)).map
            (fun peer => (peer, Packet.push st.pubkey key
              (((lookupTable
                    (runGossip cfg oracle stakes st inbound).2.tableAfterRefresh
                    key).getD
                  { ordinal := 0, numDups := 0 }).ordinal)))) := rfl

/-- The rotation decision, read off the definition. -/
lemma runGossip_didRotate_eq (cfg : Config) (oracle : GossipOracle)
    (stakes : Stakes) (st : NodeSt) (inbound : List Packet) :
    (runGossip cfg oracle stakes st inbound).2.didRotate =
      decide (cfg.rotateActiveSetRounds ≠ 0 ∧
        (st.numGossipRounds + 1) % cfg.rotateActiveSetRounds = 1) := rfl

/-- The rotation candidate pool, read off the definition. -/
lemma runGossip_candidates_eq (cfg : Config) (oracle : GossipOracle)
    (stakes : Stakes) (st : NodeSt) (inbound : List Packet) :
    (runGossip cfg oracle stakes st inbound).2.candidates =
      if cfg.rotateActiveSetRounds ≠ 0 ∧
          (st.numGossipRounds + 1) % cfg.rotateActiveSetRounds = 1 then
        rotateCandidates st.pubkey stakes st.table
      else [] := rfl

/-- Every planned push destination comes from `get_nodes`, so under the
spec's contract that `get_nodes` never yields `self`, no destination is
`self`. -/
lemma pushSends_ne_self (cfg : Config) (oracle : GossipOracle)
    (stakes : Stakes) (st : NodeSt) (inbound : List Packet)
    (hpeers : ∀ origin, st.pubkey ∉ oracle.activePeers origin) :
    ∀ s ∈ (runGossip cfg oracle stakes st inbound).2.pushSends,
      s.1 ≠ st.pubkey := by
  intro s hs
  rw [runGossip_pushSends_eq] at hs
  obtain ⟨key, _, hsk⟩ := List.mem_flatMap.mp hs
  obtain ⟨peer, hpeer, hpe⟩ := List.mem_map.mp hsk
  have hmem : peer ∈ oracle.activePeers key.origin :=
    List.take_subset _ _ hpeer
  intro hself
  rw [← hpe] at hself
  simp only at hself
  exact hpeers key.origin (hself ▸ hmem)

/-- C5. For every pushed key the fan-out is `⌊f⌋` plus the Bernoulli draw on
`f mod 1`, with `f` the wide rate for own-origin keys and the narrow rate
otherwise; the Push packet carries the key's current table ordinal and goes
to at most `fanout` peers taken from the front of `get_nodes`. -/
theorem push_fanout_rule (cfg : Config) (oracle : GossipOracle)
    (stakes : Stakes) (st : NodeSt) (inbound : List Packet)
    (h1 : 0 ≤ cfg.gossipPushFanout) (h2 : 0 ≤ cfg.gossipPushWideFanout) :
    ((runGossip cfg oracle stakes st inbound).2.pushSends =
      ((runGossip cfg oracle stakes st inbound).2.sortedKeys).flatMap
        (fun key =>
          ((oracle.activePeers key.origin).take
              (fanoutFor cfg st.pubkey (oracle.fanoutBern key)
                key.origin)).map
            (fun peer => (peer, Packet.push st.pubkey key
              (((lookupTable
                    (runGossip cfg oracle stakes st inbound).2.tableAfterRefresh
                    key).getD
                  { ordinal := 0, numDups := 0 }).ordinal))))) ∧
    (∀ key : CrdsKey,
      ((fanoutFor cfg st.pubkey (oracle.fanoutBern key) key.origin : Nat) :
          Int) =
        (if key.origin = st.pubkey then ⌊cfg.gossipPushWideFanout⌋
          else ⌊cfg.gossipPushFanout⌋) +
        (if oracle.fanoutBern key then 1 else 0)) ∧
    (∀ key : CrdsKey,
      ((oracle.activePeers key.origin).take
          (fanoutFor cfg st.pubkey (oracle.fanoutBern key)
            key.origin)).length ≤
        fanoutFor cfg st.pubkey (oracle.fanoutBern key) key.origin) := by
  refine ⟨runGossip_pushSends_eq cfg oracle stakes st inbound, ?_, ?_⟩
  · intro key
    unfold fanoutFor ratAsUsize
    by_cases hor : key.origin = st.pubkey
    · rcases h : oracle.fanoutBern key with _ | _ <;>
        simp [hor, h, Int.toNat_of_nonneg (Int.floor_nonneg.mpr h2)]
    · rcases h : oracle.fanoutBern key with _ | _ <;>
        simp [hor, h, Int.toNat_of_nonneg (Int.floor_nonneg.mpr h1)]
  · intro key
    rw [List.length_take]
    exact min_le_left _ _

/-- Witness for C5 at the sample configuration (wide fan-out `13/2`,
Bernoulli draw true, own-origin key): the fan-out is `⌊13/2⌋ + 1`. -/
theorem push_fanout_rule_witness :
    ((fanoutFor cfgSample stSample.pubkey
        (oracleSample.fanoutBern ⟨1, 0⟩) (⟨1, 0⟩ : CrdsKey).origin : Nat) :
        Int) =
      (if (⟨1, 0⟩ : CrdsKey).origin = stSample.pubkey then
          ⌊cfgSample.gossipPushWideFanout⌋
        else ⌊cfgSample.gossipPushFanout⌋) +
      (if oracleSample.fanoutBern ⟨1, 0⟩ then 1 else 0) :=
  (push_fanout_rule cfgSample oracleSample stakesSample stSample []
      (by norm_num [cfgSample]) (by norm_num [cfgSample])).2.1 ⟨1, 0⟩

/-- C6. Rotation happens exactly in the rounds where the incremented round
counter is `≡ 1` modulo `rotate_active_set_rounds` (for the value 4: rounds
1, 5, 9, …), and the candidate pool is all stake-map keys together with all
origins observed in the table, minus the node's own pubkey, without
duplicates. -/
theorem rotation_rule (cfg : Config) (oracle : GossipOracle)
    (stakes : Stakes) (st : NodeSt) (inbound : List Packet)
    (h0 : cfg.rotateActiveSetRounds ≠ 0) :
    ((runGossip cfg oracle stakes st inbound).2.didRotate = true ↔
      (st.numGossipRounds + 1) % cfg.rotateActiveSetRounds = 1) ∧
    (cfg.rotateActiveSetRounds = 4 →
      ((runGossip cfg oracle stakes st inbound).2.didRotate = true ↔
        ∃ j, st.numGossipRounds + 1 = 4 * j + 1)) ∧
    ((runGossip cfg oracle stakes st inbound).2.candidates =
      if (st.numGossipRounds + 1) % cfg.rotateActiveSetRounds = 1 then
        rotateCandidates st.pubkey stakes st.table
      else []) ∧
    (∀ x, x ∈ rotateCandidates st.pubkey stakes st.table ↔
      (x ∈ stakes.map Prod.fst ∨
        x ∈ st.table.map (fun kv => kv.1.origin)) ∧ x ≠ st.pubkey) ∧
    (rotateCandidates st.pubkey stakes st.table).Nodup := by
  have hdid : (runGossip cfg oracle stakes st inbound).2.didRotate = true ↔
      (st.numGossipRounds + 1) % cfg.rotateActiveSetRounds = 1 := by
    rw [runGossip_didRotate_eq]
    simp [h0]
  refine ⟨hdid, ?_, ?_, ?_, ?_⟩
  · intro h4
    rw [hdid, h4]
    constructor
    · intro h
      exact ⟨(st.numGossipRounds + 1) / 4, by omega⟩
    · rintro ⟨j, hj⟩
      omega
  · rw [runGossip_candidates_eq]
    by_cases hc : (st.numGossipRounds + 1) % cfg.rotateActiveSetRounds = 1 <;>
      simp [h0, hc]
  · intro x
    unfold rotateCandidates
    rw [mem_firstDedup, List.mem_filter]
    simp [and_comm]
  · exact firstDedup_nodup _

/-- Witness for C6 at the sample state: round 1 with cadence 4 rotates. -/
theorem rotation_rule_witness :
    ((runGossip cfgSample oracleSample stakesSample stSample []).2.didRotate =
        true ↔
      (stSample.numGossipRounds + 1) % cfgSample.rotateActiveSetRounds = 1) :=
  (rotation_rule cfgSample oracleSample stakesSample stSample []
      (by decide)).1

/-- C8. Under the spec's `get_nodes` contract (the iterator never yields
`self_pubkey`), no Push packet is ever destined for the node itself, and the
in-loop assertion never fires: the round never panics (when
`rotate_active_set_rounds` is nonzero, the only other panic source). -/
theorem no_push_to_self (cfg : Config) (oracle : GossipOracle)
    (stakes : Stakes) (st : NodeSt) (inbound : List Packet)
    (hpeers : ∀ origin, st.pubkey ∉ oracle.activePeers origin) :
    (∀ s ∈ (runGossip cfg oracle stakes st inbound).2.pushSends,
        s.1 ≠ st.pubkey) ∧
    (cfg.rotateActiveSetRounds ≠ 0 →
      (runGossip cfg oracle stakes st inbound).1 ≠ RunOutcome.panicked) := by
  refine ⟨pushSends_ne_self cfg oracle stakes st inbound hpeers, ?_⟩
  intro h0
  rw [runGossip_outcome_eq, if_neg h0]
  by_cases hp : ((runGossip cfg oracle stakes st inbound).2.pruneSends).any
      (fun s => oracle.sendFail s.1)
  · simp [hp]
  · rw [if_neg (by simpa using hp)]
    refine pushLoopOutcome_ne_panicked st.pubkey oracle.sendFail _ ?_
    intro n hn
    obtain ⟨s, hs, hse⟩ := List.mem_map.mp hn
    exact hse ▸ pushSends_ne_self cfg oracle stakes st inbound hpeers s hs

/-- Witness for C8 at the sample round (peers `[5, 9]`, self `1`). -/
theorem no_push_to_self_witness :
    (∀ s ∈ (runGossip cfgSample oracleSample stakesSample stSample
        []).2.pushSends, s.1 ≠ stSample.pubkey) ∧
    (cfgSample.rotateActiveSetRounds ≠ 0 →
      (runGossip cfgSample oracleSample stakesSample stSample []).1 ≠
        RunOutcome.panicked) :=
  no_push_to_self cfgSample oracleSample stakesSample stSample []
    (fun _ => by norm_num [oracleSample, stSample])

/-- C9. With a nonzero rotation cadence and the `get_nodes` contract, a
round returns the router error exactly when one of its planned sends (prune
sends first, then push sends) targets a failing destination, and returns
success exactly when none does: every other condition is counted in
`ConsumeOutput`, never raised. -/
theorem run_gossip_error_iff (cfg : Config) (oracle : GossipOracle)
    (stakes : Stakes) (st : NodeSt) (inbound : List Packet)
    (h0 : cfg.rotateActiveSetRounds ≠ 0)
    (hpeers : ∀ origin, st.pubkey ∉ oracle.activePeers origin) :
    ((runGossip cfg oracle stakes st inbound).1 = RunOutcome.sendError ↔
      ∃ s ∈ (runGossip cfg oracle stakes st inbound).2.pruneSends ++
          (runGossip cfg oracle stakes st inbound).2.pushSends,
        oracle.sendFail s.1 = true) ∧
    ((runGossip cfg oracle stakes st inbound).1 = RunOutcome.ok ↔
      ∀ s ∈ (runGossip cfg oracle stakes st inbound).2.pruneSends ++
          (runGossip cfg oracle stakes st inbound).2.pushSends,
        oracle.sendFail s.1 = false) := by
  have hne : ∀ n ∈ ((runGossip cfg oracle stakes st inbound).2.pushSends).map
      Prod.fst, n ≠ st.pubkey := by
    intro n hn
    obtain ⟨s, hs, hse⟩ := List.mem_map.mp hn
    exact hse ▸ pushSends_ne_self cfg oracle stakes st inbound hpeers s hs
  have hloop := pushLoopOutcome_spec st.pubkey oracle.sendFail
    (((runGossip cfg oracle stakes st inbound).2.pushSends).map Prod.fst) hne
  rw [runGossip_outcome_eq, if_neg h0]
  by_cases hp : ((runGossip cfg oracle stakes st inbound).2.pruneSends).any
      (fun s => oracle.sendFail s.1)
  · rw [if_pos hp]
    obtain ⟨s, hs, hsf⟩ := List.any_eq_true.mp hp
    constructor
    · simp only [true_iff]
      exact ⟨s, List.mem_append.mpr (Or.inl hs), by simpa using hsf⟩
    · constructor
      · intro h
        exact absurd h (by simp)
      · intro hall
        exact absurd (hall s (List.mem_append.mpr (Or.inl hs)))
          (by simpa using hsf)
  · rw [if_neg (by simpa using hp)]
    have hallprune : ∀ s ∈ (runGossip cfg oracle stakes st
        inbound).2.pruneSends, oracle.sendFail s.1 = false := by
      intro s hs
      by_contra hc
      have hcs : oracle.sendFail s.1 = true := by simpa using hc
      exact hp (List.any_eq_true.mpr ⟨s, hs, hcs⟩)
    constructor
    · rw [hloop.1]
      constructor
      · rintro ⟨n, hn, hnf⟩
        obtain ⟨s, hs, hse⟩ := List.mem_map.mp hn
        exact ⟨s, List.mem_append.mpr (Or.inr hs), by rw [hse]; exact hnf⟩
      · rintro ⟨s, hs, hsf⟩
        rcases List.mem_append.mp hs with h | h
        · exact absurd hsf (by simp [hallprune s h])
        · exact ⟨s.1, List.mem_map.mpr ⟨s, h, rfl⟩, hsf⟩
    · rw [hloop.2]
      constructor
      · intro hall s hs
        rcases List.mem_append.mp hs with h | h
        · exact hallprune s h
        · exact hall s.1 (List.mem_map.mpr ⟨s, h, rfl⟩)
      · intro hall n hn
        obtain ⟨s, hs, hse⟩ := List.mem_map.mp hn
        exact hse ▸ hall s (List.mem_append.mpr (Or.inr hs))

/-- Witness for C9 at the sample round: no send fails, so the round
succeeds. -/
theorem run_gossip_error_iff_witness :
    ((runGossip cfgSample oracleSample stakesSample stSample []).1 =
        RunOutcome.ok ↔
      ∀ s ∈ (runGossip cfgSample oracleSample stakesSample stSample
            []).2.pruneSends ++
          (runGossip cfgSample oracleSample stakesSample stSample
            []).2.pushSends,
        oracleSample.sendFail s.1 = false) :=
  (run_gossip_error_iff cfgSample oracleSample stakesSample stSample []
      (by decide) (fun _ => by norm_num [oracleSample, stSample])).2

/-- C10. `run_gossip` is total only for `rotate_active_set_rounds ≥ 1`: with
the value 0 the round counter is taken modulo zero and the round panics;
with the value 1 the rotation condition `round mod 1 == 1` never holds, so
the active set is never rotated. -/
theorem rotate_rounds_guard (cfg : Config) (oracle : GossipOracle)
    (stakes : Stakes) (st : NodeSt) (inbound : List Packet) :
    (cfg.rotateActiveSetRounds = 0 →
      (runGossip cfg oracle stakes st inbound).1 = RunOutcome.panicked) ∧
    (cfg.rotateActiveSetRounds = 1 →
      (runGossip cfg oracle stakes st inbound).2.didRotate = false) := by
  constructor
  · intro h
    rw [runGossip_outcome_eq, if_pos h]
  · intro h
    rw [runGossip_didRotate_eq, h]
    simp [Nat.mod_one]

/-- Witness for C10: with rotation cadence 0 the sample round panics, and
with cadence 1 it never rotates. -/
theorem rotate_rounds_guard_witness :
    ((⟨2, 13/2, 0, 2, 0, 0, 1, 1, 1, 0⟩ : Config).rotateActiveSetRounds = 0 →
      (runGossip ⟨2, 13/2, 0, 2, 0, 0, 1, 1, 1, 0⟩ oracleSample stakesSample
        stSample []).1 = RunOutcome.panicked) ∧
    ((⟨2, 13/2, 0, 2, 0, 0, 1, 1, 1, 0⟩ : Config).rotateActiveSetRounds = 1 →
      (runGossip ⟨2, 13/2, 0, 2, 0, 0, 1, 1, 1, 0⟩ oracleSample stakesSample
        stSample []).2.didRotate = false) :=
  rotate_rounds_guard ⟨2, 13/2, 0, 2, 0, 0, 1, 1, 1, 0⟩ oracleSample
    stakesSample stSample []

/-- Witness for C7: origins 2 and 3 both prune peer 5, and peer 5 gets one
packet listing both. -/
theorem send_prunes_groups_by_peer_witness :
    ((sendPrunesPackets 1 [2, 3] (fun _ => [5])).map Prod.fst).Nodup ∧
    (∀ peer, peer ∈ (sendPrunesPackets 1 [2, 3] (fun _ => [5])).map
        Prod.fst ↔ ∃ origin ∈ [2, 3], peer ∈ (fun _ : Pubkey => [5]) origin) ∧
    (∀ peer pkt, (peer, pkt) ∈ sendPrunesPackets 1 [2, 3] (fun _ => [5]) →
      pkt = Packet.prune 1
        (((prunePairs [2, 3] (fun _ => [5])).filter
            (fun pr => pr.1 = peer)).map Prod.snd)) :=
  send_prunes_groups_by_peer 1 [2, 3] (fun _ => [5])
